import Mathlib

/-!
# Verification of the `incache` in-memory cache library

Shallow embedding of the three cache engines of the `incache` Go package:
the Manual engine (`mcache.go`, type `MCache`), the LRU engine
(`lru_cache.go`, type `LRUCache`) and the LFU engine (`lfu_cache.go`,
type `LFUCache`), together with proofs about capacity enforcement,
eviction order, expiration, transfer and purge behaviour.

Modelling conventions:
- Go `time.Time` instants and `time.Duration` values are both modelled as
  `Int` (nanosecond counts); every operation that calls `time.Now()`
  receives the current instant `now : Int` as an extra argument.
- A Go `map[K]...` is modelled as an association list `List (K × ...)`
  with pairwise-distinct keys; Go's unspecified map iteration order is
  determinised to the list order.
- The `container/list` eviction list of the LRU/LFU engines is modelled
  as a `List` whose head is the front of the linked list.  Because the
  map and the eviction list are kept in bijection by the source, the
  LRU/LFU cache state is represented by the eviction list itself (each
  node carrying key, value and expiry metadata), plus the capacity.
- Functions returning Go's `(value, ok)` pairs return `Option` values;
  mutation is explicit state passing; the one run-time panic modelled
  (`MCache.Purge` sending on a closed channel) is an `Except.error`.
-/

set_option autoImplicit false
set_option linter.unusedSectionVars false
set_option linter.unnecessarySeqFocus false

namespace Incache

variable {K V : Type} [DecidableEq K] [DecidableEq V]

/-- `valueWithTimeout` (mcache.go): stored value plus optional absolute
expiration instant (`expireAt *time.Time`, `none` = no expiration). -/
structure ValueWithTimeout (V : Type) where
  value : V
  expireAt : Option Int
  deriving Repr, DecidableEq

/-- Go `expireAt != nil && expireAt.Before(now)`: strictly in the past.
Used by every `Get`, `Count`, `TransferTo`, `CopyTo`. -/
def expiredBefore (now : Int) (e : Option Int) : Bool :=
  match e with
  | none => false
  | some t => t < now

/-- Go `expireAt != nil && !expireAt.After(now)`: not in the future.
Used only by `MCache.evict`'s expired-entry scan. -/
def expiredNotAfter (now : Int) (e : Option Int) : Bool :=
  match e with
  | none => false
  | some t => t ≤ now

/-- Lookup in a Go map modelled as an association list (first match). -/
def mapLookup {A : Type} (k : K) : List (K × A) → Option A
  | [] => none
  | (k2, a) :: rest => if k2 = k then some a else mapLookup k rest

/-- Assignment `m[k] = a` on a Go map: replace the value in place if the
key is present, otherwise add the binding (determinised to the end). -/
def mapPut {A : Type} (k : K) (a : A) : List (K × A) → List (K × A)
  | [] => [(k, a)]
  | (k2, a2) :: rest =>
    if k2 = k then (k2, a) :: rest else (k2, a2) :: mapPut k a rest

/-- Go `delete(m, k)`. -/
def mapErase {A : Type} (k : K) : List (K × A) → List (K × A)
  | [] => []
  | (k2, a2) :: rest =>
    if k2 = k then rest else (k2, a2) :: mapErase k rest

/-- `MCache` (mcache.go): the Manual engine.  `m` is the entry map,
`size` the capacity, `timeInterval` the sweep interval, and `stopClosed`
records whether `Purge` has already closed the sweeper's stop channel. -/
structure MCache (K V : Type) where
  m : List (K × ValueWithTimeout V)
  size : Nat
  timeInterval : Int
  stopClosed : Bool
  deriving Repr, DecidableEq

/-- `newManual` (mcache.go): empty map, open stop channel. -/
def newManual (size : Nat) (timeInterval : Int) : MCache K V :=
  { m := [], size := size, timeInterval := timeInterval, stopClosed := false }

/-- First loop of `MCache.evict` (mcache.go): a single scan over the map
that deletes expired entries, stopping once `counter` reaches `i`.
Returns the remaining map and the final counter. -/
def mcacheEvictScan (now : Int) (i : Nat) :
    List (K × ValueWithTimeout V) → Nat → List (K × ValueWithTimeout V) × Nat
  | [], counter => ([], counter)
  | (k, e) :: rest, counter =>
    if counter = i then ((k, e) :: rest, counter)
    else if expiredNotAfter now e.expireAt then
      mcacheEvictScan now i rest (counter + 1)
    else
      ((k, e) :: (mcacheEvictScan now i rest counter).1,
       (mcacheEvictScan now i rest counter).2)

/-- `MCache.evict` (mcache.go): scan once deleting expired entries (up to
`i` of them); clamp `i` to the remaining length; then, while
`counter < i`, an inner `for k := range c.m` loop deletes every remaining
entry (its body has no break, so one pass empties the whole map). -/
def MCache.evict (c : MCache K V) (i : Nat) (now : Int) : MCache K V :=
  let scan := mcacheEvictScan now i c.m 0
  { c with m := if scan.2 < min i scan.1.length then [] else scan.1 }

/-- The guard `if len(c.m) == int(c.size) { c.evict(1) }` shared by every
`MCache` write path. -/
def MCache.evictIfFull (c : MCache K V) (now : Int) : MCache K V :=
  if c.m.length = c.size then c.evict 1 now else c

/-- `MCache.Set` (mcache.go). -/
def MCache.Set (c : MCache K V) (k : K) (v : V) (now : Int) : MCache K V :=
  if c.size = 0 then c
  else
    let c2 := c.evictIfFull now
    { c2 with m := mapPut k ⟨v, none⟩ c2.m }

/-- `MCache.setValueWithTimeout` (mcache.go): used by `TransferTo` and
`CopyTo`; stores a prebuilt entry, expiry metadata included. -/
def MCache.setValueWithTimeout (c : MCache K V) (k : K) (v : ValueWithTimeout V)
    (now : Int) : MCache K V :=
  if c.size = 0 then c
  else
    let c2 := c.evictIfFull now
    { c2 with m := mapPut k v c2.m }

/-- `MCache.SetWithTimeout` (mcache.go): `timeout > 0` stores
`expireAt = now + timeout`; otherwise it falls through to `Set`. -/
def MCache.SetWithTimeout (c : MCache K V) (k : K) (v : V) (timeout : Int)
    (now : Int) : MCache K V :=
  if c.size = 0 then c
  else if timeout > 0 then
    let c2 := c.evictIfFull now
    { c2 with m := mapPut k ⟨v, some (now + timeout)⟩ c2.m }
  else
    c.Set k v now

/-- `MCache.NotFoundSet` (mcache.go): insert only when the key is
(physically) absent; returns whether insertion happened. -/
def MCache.NotFoundSet (c : MCache K V) (k : K) (v : V) (now : Int) :
    Bool × MCache K V :=
  if c.size = 0 then (false, c)
  else
    match mapLookup k c.m with
    | some _ => (false, c)
    | none =>
      let c2 := c.evictIfFull now
      (true, { c2 with m := mapPut k ⟨v, none⟩ c2.m })

/-- `MCache.NotFoundSetWithTimeout` (mcache.go): both branches of the Go
`timeout > 0` test do the same presence check and insertion, differing
only in the stored `expireAt`. -/
def MCache.NotFoundSetWithTimeout (c : MCache K V) (k : K) (v : V)
    (timeout : Int) (now : Int) : Bool × MCache K V :=
  if c.size = 0 then (false, c)
  else
    let tm : Option Int := if timeout > 0 then some (now + timeout) else none
    match mapLookup k c.m with
    | some _ => (false, c)
    | none =>
      let c2 := c.evictIfFull now
      (true, { c2 with m := mapPut k ⟨v, tm⟩ c2.m })

/-- `MCache.Get` (mcache.go): absent → not found; expired (strictly
before `now`) → delete the entry and report not found; otherwise return
the stored value. -/
def MCache.Get (c : MCache K V) (k : K) (now : Int) : Option V × MCache K V :=
  match mapLookup k c.m with
  | none => (none, c)
  | some e =>
    if expiredBefore now e.expireAt then
      (none, { c with m := mapErase k c.m })
    else
      (some e.value, c)

/-- `MCache.Delete` (mcache.go). -/
def MCache.Delete (c : MCache K V) (k : K) : MCache K V :=
  { c with m := mapErase k c.m }

/-- Loop body of `MCache.TransferTo`/`CopyTo` (mcache.go): feed every
entry of the source map — expired ones included — to
`dst.setValueWithTimeout`. -/
def mcacheSendAll (now : Int) :
    List (K × ValueWithTimeout V) → MCache K V → MCache K V
  | [], dst => dst
  | (k, e) :: rest, dst => mcacheSendAll now rest (dst.setValueWithTimeout k e now)

/-- `MCache.TransferTo` (mcache.go): sends all entries to `dst`, then
replaces the source map with a fresh empty one. -/
def MCache.TransferTo (src dst : MCache K V) (now : Int) : MCache K V × MCache K V :=
  ({ src with m := [] }, mcacheSendAll now src.m dst)

/-- `MCache.CopyTo` (mcache.go): sends all entries to `dst`; the source
is only read. -/
def MCache.CopyTo (src dst : MCache K V) (now : Int) : MCache K V :=
  mcacheSendAll now src.m dst

/-- `MCache.Count` (mcache.go): `return len(c.m)` — the raw map length,
expired entries included. -/
def MCache.Count (c : MCache K V) : Nat :=
  c.m.length

/-- `MCache.Purge` (mcache.go): when a sweeper was started
(`timeInterval > 0`) it sends on the stop channel and closes it; a second
call then sends on an already-closed channel, a run-time panic, modelled
as `Except.error ()`.  In every case the map is released (`c.m = nil`). -/
def MCache.Purge (c : MCache K V) : Except Unit (MCache K V) :=
  if 0 < c.timeInterval then
    if c.stopClosed then Except.error ()
    else Except.ok { c with m := [], stopClosed := true }
  else
    Except.ok { c with m := [] }

/-- `lruItem` (lru_cache.go): one node of the LRU eviction list. -/
structure LruItem (K V : Type) where
  key : K
  value : V
  expireAt : Option Int
  deriving Repr, DecidableEq

/-- `LRUCache` (lru_cache.go): the eviction list (head = front =
most-recently-used, last = back = victim) plus the capacity.  The Go map
`m : map[K]*list.Element` is the key-indexed view of this list. -/
structure LRUCache (K V : Type) where
  list : List (LruItem K V)
  size : Nat
  deriving Repr, DecidableEq

/-- `NewLRU` (lru_cache.go). -/
def NewLRU (size : Nat) : LRUCache K V :=
  { list := [], size := size }

/-- Locate the unique node with key `k`: returns the nodes in front of
it, the node, and the nodes behind it.  Models the map lookup
`c.m[k]` together with the node's position in the eviction list. -/
def lruSplit (k : K) : List (LruItem K V) →
    Option (List (LruItem K V) × LruItem K V × List (LruItem K V))
  | [] => none
  | it :: rest =>
    if it.key = k then some ([], it, rest)
    else
      match lruSplit k rest with
      | none => none
      | some (b, e, a) => some (it :: b, e, a)

/-- `LRUCache.set` (lru_cache.go): existing key → update the node in
place and `MoveToFront`; new key → evict the back node when at capacity
(`len(c.m) == int(c.size)`), then `PushFront` the new node. -/
def LRUCache.set (c : LRUCache K V) (k : K) (v : V) (exp : Int) (now : Int) :
    LRUCache K V :=
  let tm : Option Int := if exp > 0 then some (now + exp) else none
  match lruSplit k c.list with
  | some (b, it, a) =>
    { c with list := { it with value := v, expireAt := tm } :: (b ++ a) }
  | none =>
    let l := if c.list.length = c.size then c.list.dropLast else c.list
    { c with list := ⟨k, v, tm⟩ :: l }

/-- `LRUCache.Set` (lru_cache.go): `c.set(k, v, 0)`. -/
def LRUCache.Set (c : LRUCache K V) (k : K) (v : V) (now : Int) : LRUCache K V :=
  c.set k v 0 now

/-- `LRUCache.SetWithTimeout` (lru_cache.go). -/
def LRUCache.SetWithTimeout (c : LRUCache K V) (k : K) (v : V) (t : Int)
    (now : Int) : LRUCache K V :=
  c.set k v t now

/-- `LRUCache.NotFoundSet` (lru_cache.go): the presence check is the
plain map lookup, so an expired-but-unswept entry also blocks insertion. -/
def LRUCache.NotFoundSet (c : LRUCache K V) (k : K) (v : V) (now : Int) :
    Bool × LRUCache K V :=
  match lruSplit k c.list with
  | some _ => (false, c)
  | none => (true, c.set k v 0 now)

/-- `LRUCache.NotFoundSetWithTimeout` (lru_cache.go). -/
def LRUCache.NotFoundSetWithTimeout (c : LRUCache K V) (k : K) (v : V)
    (t : Int) (now : Int) : Bool × LRUCache K V :=
  match lruSplit k c.list with
  | some _ => (false, c)
  | none => (true, c.set k v t now)

/-- `LRUCache.Get` (lru_cache.go): absent → not found; expired → delete
map entry and list node, not found; live → `MoveToFront` and return. -/
def LRUCache.Get (c : LRUCache K V) (k : K) (now : Int) :
    Option V × LRUCache K V :=
  match lruSplit k c.list with
  | none => (none, c)
  | some (b, it, a) =>
    if expiredBefore now it.expireAt then
      (none, { c with list := b ++ a })
    else
      (some it.value, { c with list := it :: (b ++ a) })

/-- `LRUCache.Delete`/`delete` (lru_cache.go). -/
def LRUCache.Delete (c : LRUCache K V) (k : K) : LRUCache K V :=
  match lruSplit k c.list with
  | none => c
  | some (b, _, a) => { c with list := b ++ a }

/-- Loop of `LRUCache.TransferTo` (lru_cache.go): unexpired entries are
deleted from the source and `Set` (without TTL) into the destination;
expired entries are left in the source untouched. -/
def lruTransferAux (now : Int) :
    List (LruItem K V) → LRUCache K V → List (LruItem K V) × LRUCache K V
  | [], dst => ([], dst)
  | it :: rest, dst =>
    if expiredBefore now it.expireAt then
      (it :: (lruTransferAux now rest dst).1, (lruTransferAux now rest dst).2)
    else
      lruTransferAux now rest (dst.Set it.key it.value now)

/-- `LRUCache.TransferTo` (lru_cache.go). -/
def LRUCache.TransferTo (src dst : LRUCache K V) (now : Int) :
    LRUCache K V × LRUCache K V :=
  ({ src with list := (lruTransferAux now src.list dst).1 },
   (lruTransferAux now src.list dst).2)

/-- Loop of `LRUCache.CopyTo` (lru_cache.go): unexpired entries are
`Set` into the destination; the source is only read. -/
def lruCopyAux (now : Int) :
    List (LruItem K V) → LRUCache K V → LRUCache K V
  | [], dst => dst
  | it :: rest, dst =>
    if expiredBefore now it.expireAt then lruCopyAux now rest dst
    else lruCopyAux now rest (dst.Set it.key it.value now)

/-- `LRUCache.CopyTo` (lru_cache.go). -/
def LRUCache.CopyTo (src dst : LRUCache K V) (now : Int) : LRUCache K V :=
  lruCopyAux now src.list dst

/-- `LRUCache.Purge` (lru_cache.go): fresh map, reinitialised list. -/
def LRUCache.Purge (c : LRUCache K V) : LRUCache K V :=
  { c with list := [] }

/-- `LRUCache.Count` (lru_cache.go): a counter loop over the map that
skips entries whose `expireAt` is in the past, deleting nothing. -/
def LRUCache.Count (c : LRUCache K V) (now : Int) : Nat :=
  c.list.foldl (fun count it => if expiredBefore now it.expireAt then count else count + 1) 0

/-- `LRUCache.Len` (lru_cache.go): `return len(c.m)`. -/
def LRUCache.Len (c : LRUCache K V) : Nat :=
  c.list.length

/-- `lfuItem` (lfu_cache.go): one node of the LFU eviction list. -/
structure LfuItem (K V : Type) where
  key : K
  value : V
  freq : Nat
  expireAt : Option Int
  deriving Repr, DecidableEq

/-- `LFUCache` (lfu_cache.go): eviction list (head = front; the back
node is the eviction victim) plus capacity. -/
structure LFUCache (K V : Type) where
  list : List (LfuItem K V)
  size : Nat
  deriving Repr, DecidableEq

/-- `NewLFU` (lfu_cache.go). -/
def NewLFU (size : Nat) : LFUCache K V :=
  { list := [], size := size }

/-- Locate the unique node with key `k` (map lookup plus list position). -/
def lfuSplit (k : K) : List (LfuItem K V) →
    Option (List (LfuItem K V) × LfuItem K V × List (LfuItem K V))
  | [] => none
  | it :: rest =>
    if it.key = k then some ([], it, rest)
    else
      match lfuSplit k rest with
      | none => none
      | some (b, e, a) => some (it :: b, e, a)

/-- The walk inside `LFUCache.move` (lfu_cache.go), on the nodes strictly
between the front node and the moved element (`mids`, front order): the
walk starts next to the element and proceeds toward the front, breaking
at the first node whose `freq` is strictly below the moved element's, so
it selects the last (rightmost) such node of `mids`.  Returns
`some (pre, hit, post)` with `mids = pre ++ hit :: post` and no node of
`post` below the threshold, or `none` when no node of `mids` is below. -/
def splitLastLt (freq : Nat) : List (LfuItem K V) →
    Option (List (LfuItem K V) × LfuItem K V × List (LfuItem K V))
  | [] => none
  | x :: xs =>
    match splitLastLt freq xs with
    | some (p, h, q) => some (x :: p, h, q)
    | none => if x.freq < freq then some ([], x, xs) else none

/-- `LFUCache.move` (lfu_cache.go), expressed on the decomposition
`list = before ++ elem :: after`.  The Go loop
`for ; curr.Prev() != nil; curr = curr.Prev()` compares `curr`'s own
frequency before stepping, so the element's own node is compared first
(trivially) and the front node is never compared.  Afterwards:
`curr == elem` → no change; `curr.freq == elem.freq` (only reachable
with `curr` the front node) → `MoveToFront`; otherwise
`MoveAfter(elem, curr)`. -/
def lfuMoveList (before : List (LfuItem K V)) (elem : LfuItem K V)
    (after : List (LfuItem K V)) : List (LfuItem K V) :=
  match before with
  | [] => elem :: after
  | front :: mids =>
    match splitLastLt elem.freq mids with
    | some (p, h, q) => front :: (p ++ h :: elem :: q) ++ after
    | none =>
      if front.freq = elem.freq then elem :: front :: (mids ++ after)
      else front :: elem :: (mids ++ after)

/-- `LFUCache.set` (lfu_cache.go): existing key → update value/expiry,
increment `freq`, then `move`; new key → evict the back node when at
capacity, `PushBack` a node with `freq = 1`, then `move` it. -/
def LFUCache.set (c : LFUCache K V) (k : K) (v : V) (exp : Int) (now : Int) :
    LFUCache K V :=
  let tm : Option Int := if exp > 0 then some (now + exp) else none
  match lfuSplit k c.list with
  | some (b, it, a) =>
    let it2 : LfuItem K V := { it with value := v, expireAt := tm, freq := it.freq + 1 }
    { c with list := lfuMoveList b it2 a }
  | none =>
    let l := if c.list.length = c.size then c.list.dropLast else c.list
    { c with list := lfuMoveList l ⟨k, v, 1, tm⟩ [] }

/-- `LFUCache.Set` (lfu_cache.go). -/
def LFUCache.Set (c : LFUCache K V) (k : K) (v : V) (now : Int) : LFUCache K V :=
  c.set k v 0 now

/-- `LFUCache.SetWithTimeout` (lfu_cache.go). -/
def LFUCache.SetWithTimeout (c : LFUCache K V) (k : K) (v : V) (exp : Int)
    (now : Int) : LFUCache K V :=
  c.set k v exp now

/-- `LFUCache.Get` (lfu_cache.go): absent → not found; expired →
`l.delete` (map entry and list node), not found; live → increment `freq`,
`move`, return the value. -/
def LFUCache.Get (c : LFUCache K V) (k : K) (now : Int) :
    Option V × LFUCache K V :=
  match lfuSplit k c.list with
  | none => (none, c)
  | some (b, it, a) =>
    if expiredBefore now it.expireAt then
      (none, { c with list := b ++ a })
    else
      (some it.value, { c with list := lfuMoveList b { it with freq := it.freq + 1 } a })

/-- `LFUCache.NotFoundSet` (lfu_cache.go): plain map-presence check, so
an expired-but-unswept entry also blocks insertion. -/
def LFUCache.NotFoundSet (c : LFUCache K V) (k : K) (v : V) (now : Int) :
    Bool × LFUCache K V :=
  match lfuSplit k c.list with
  | some _ => (false, c)
  | none => (true, c.set k v 0 now)

/-- `LFUCache.NotFoundSetWithTimeout` (lfu_cache.go). -/
def LFUCache.NotFoundSetWithTimeout (c : LFUCache K V) (k : K) (v : V)
    (t : Int) (now : Int) : Bool × LFUCache K V :=
  match lfuSplit k c.list with
  | some _ => (false, c)
  | none => (true, c.set k v t now)

/-- `LFUCache.Delete`/`delete` (lfu_cache.go). -/
def LFUCache.Delete (c : LFUCache K V) (k : K) : LFUCache K V :=
  match lfuSplit k c.list with
  | none => c
  | some (b, _, a) => { c with list := b ++ a }

/-- Loop of `LFUCache.TransferTo` (lfu_cache.go): unexpired entries are
deleted from the source and `Set` into the destination; expired entries
stay in the source. -/
def lfuTransferAux (now : Int) :
    List (LfuItem K V) → LFUCache K V → List (LfuItem K V) × LFUCache K V
  | [], dst => ([], dst)
  | it :: rest, dst =>
    if expiredBefore now it.expireAt then
      (it :: (lfuTransferAux now rest dst).1, (lfuTransferAux now rest dst).2)
    else
      lfuTransferAux now rest (dst.Set it.key it.value now)

/-- `LFUCache.TransferTo` (lfu_cache.go). -/
def LFUCache.TransferTo (src dst : LFUCache K V) (now : Int) :
    LFUCache K V × LFUCache K V :=
  ({ src with list := (lfuTransferAux now src.list dst).1 },
   (lfuTransferAux now src.list dst).2)

/-- Loop of `LFUCache.CopyTo` (lfu_cache.go). -/
def lfuCopyAux (now : Int) :
    List (LfuItem K V) → LFUCache K V → LFUCache K V
  | [], dst => dst
  | it :: rest, dst =>
    if expiredBefore now it.expireAt then lfuCopyAux now rest dst
    else lfuCopyAux now rest (dst.Set it.key it.value now)

/-- `LFUCache.CopyTo` (lfu_cache.go). -/
def LFUCache.CopyTo (src dst : LFUCache K V) (now : Int) : LFUCache K V :=
  lfuCopyAux now src.list dst

/-- `LFUCache.Purge` (lfu_cache.go). -/
def LFUCache.Purge (c : LFUCache K V) : LFUCache K V :=
  { c with list := [] }

/-- `LFUCache.Count` (lfu_cache.go): counter loop skipping expired
entries, deleting nothing. -/
def LFUCache.Count (c : LFUCache K V) (now : Int) : Nat :=
  c.list.foldl (fun count it => if expiredBefore now it.expireAt then count else count + 1) 0

/-- `LFUCache.Len` (lfu_cache.go): `return len(l.m)`. -/
def LFUCache.Len (c : LFUCache K V) : Nat :=
  c.list.length

/-- One write operation of the uniform `Set*` family, with the instant at
which it is issued.  Used to quantify over call sequences. -/
inductive CacheOp (K V : Type) where
  | set (k : K) (v : V) (now : Int)
  | setWithTimeout (k : K) (v : V) (ttl : Int) (now : Int)
  | notFoundSet (k : K) (v : V) (now : Int)
  | notFoundSetWithTimeout (k : K) (v : V) (ttl : Int) (now : Int)

/-- Run one `Set*` call on the Manual engine. -/
def MCache.applyOp (c : MCache K V) : CacheOp K V → MCache K V
  | CacheOp.set k v now => c.Set k v now
  | CacheOp.setWithTimeout k v ttl now => c.SetWithTimeout k v ttl now
  | CacheOp.notFoundSet k v now => (c.NotFoundSet k v now).2
  | CacheOp.notFoundSetWithTimeout k v ttl now => (c.NotFoundSetWithTimeout k v ttl now).2

/-- Run a sequence of `Set*` calls on the Manual engine. -/
def MCache.applyOps (c : MCache K V) (ops : List (CacheOp K V)) : MCache K V :=
  ops.foldl MCache.applyOp c

/-- Run one `Set*` call on the LRU engine. -/
def LRUCache.applyOp (c : LRUCache K V) : CacheOp K V → LRUCache K V
  | CacheOp.set k v now => c.Set k v now
  | CacheOp.setWithTimeout k v ttl now => c.SetWithTimeout k v ttl now
  | CacheOp.notFoundSet k v now => (c.NotFoundSet k v now).2
  | CacheOp.notFoundSetWithTimeout k v ttl now => (c.NotFoundSetWithTimeout k v ttl now).2

/-- Run a sequence of `Set*` calls on the LRU engine. -/
def LRUCache.applyOps (c : LRUCache K V) (ops : List (CacheOp K V)) : LRUCache K V :=
  ops.foldl LRUCache.applyOp c

/-- Run one `Set*` call on the LFU engine. -/
def LFUCache.applyOp (c : LFUCache K V) : CacheOp K V → LFUCache K V
  | CacheOp.set k v now => c.Set k v now
  | CacheOp.setWithTimeout k v ttl now => c.SetWithTimeout k v ttl now
  | CacheOp.notFoundSet k v now => (c.NotFoundSet k v now).2
  | CacheOp.notFoundSetWithTimeout k v ttl now => (c.NotFoundSetWithTimeout k v ttl now).2

/-- Run a sequence of `Set*` calls on the LFU engine. -/
def LFUCache.applyOps (c : LFUCache K V) (ops : List (CacheOp K V)) : LFUCache K V :=
  ops.foldl LFUCache.applyOp c

/-- Modelled from the spec: the number of stored entries whose expiration
is absent or not yet passed (the spec's description of `Count`). -/
def specUnexpiredCount (now : Int) (entries : List (Option Int)) : Nat :=
  (entries.filter (fun e => !expiredBefore now e)).length

/-- The capacity-2 LFU scenario of the spec: `Set 1`, `Set 2`, `Get 1`
twice, then `Set 3` (a new key), all without TTL. -/
def lfuScenarioC3 : LFUCache Nat Nat :=
  ((((((NewLFU 2 : LFUCache Nat Nat).Set 1 10 0).Set 2 20 0).Get 1 0).2.Get 1 0).2.Set 3 30 0)

/-- Three frequency-1 insertions into a capacity-2 LFU cache. -/
def lfuScenarioC4 : LFUCache Nat Nat :=
  (((NewLFU 2 : LFUCache Nat Nat).Set 1 10 0).Set 2 20 0).Set 3 30 0

/-- The capacity-2 LRU scenario of the spec: `Set 1`, `Set 2`, `Get 1`,
then `Set 3` (a new key). -/
def lruScenarioC5 : LRUCache Nat Nat :=
  (((((NewLRU 2 : LRUCache Nat Nat).Set 1 10 0).Set 2 20 0).Get 1 0).2).Set 3 30 0

/-! ## Helper lemmas -/

theorem mapPut_length_le {A : Type} (k : K) (a : A) (m : List (K × A)) :
    (mapPut k a m).length ≤ m.length + 1 := by
  induction m with
  | nil => simp [mapPut]
  | cons kv rest ih =>
    obtain ⟨k2, a2⟩ := kv
    by_cases h : k2 = k <;> simp [mapPut, h] <;> omega

theorem mcacheEvictScan_spec (now : Int) (i : Nat)
    (l : List (K × ValueWithTimeout V)) (counter : Nat) :
    (mcacheEvictScan now i l counter).1.length + (mcacheEvictScan now i l counter).2
        = l.length + counter
  ∧ counter ≤ (mcacheEvictScan now i l counter).2 := by
  induction l generalizing counter with
  | nil => simp [mcacheEvictScan]
  | cons kv rest ih =>
    obtain ⟨k, e⟩ := kv
    by_cases hc : counter = i
    · simp [mcacheEvictScan, hc]
    · by_cases he : expiredNotAfter now e.expireAt
      · have h2 := ih (counter + 1)
        simp only [mcacheEvictScan, if_neg hc, if_pos he, List.length_cons]
        constructor
        · omega
        · omega
      · have h2 := ih counter
        simp only [mcacheEvictScan, if_neg hc, if_neg he]
        constructor
        · simp only [List.length_cons]
          omega
        · exact h2.2

theorem MCache.evict_one_length (c : MCache K V) (now : Int)
    (hfull : c.m.length = c.size) (hpos : 0 < c.size) :
    (c.evict 1 now).m.length < c.size := by
  have hspec := mcacheEvictScan_spec now 1 c.m 0
  simp only [MCache.evict]
  by_cases h : (mcacheEvictScan now 1 c.m 0).2 < min 1 (mcacheEvictScan now 1 c.m 0).1.length
  · simp only [if_pos h, List.length_nil]
    exact hpos
  · simp only [if_neg h]
    omega

theorem MCache.evict_size (c : MCache K V) (i : Nat) (now : Int) :
    (c.evict i now).size = c.size := rfl

theorem MCache.evictIfFull_size (c : MCache K V) (now : Int) :
    (c.evictIfFull now).size = c.size := by
  unfold MCache.evictIfFull
  by_cases h : c.m.length = c.size <;> simp [h, MCache.evict]

theorem MCache.evictIfFull_length_lt (c : MCache K V) (now : Int)
    (h : c.m.length ≤ c.size) (hpos : 0 < c.size) :
    (c.evictIfFull now).m.length < c.size := by
  unfold MCache.evictIfFull
  by_cases hf : c.m.length = c.size
  · simp only [if_pos hf]
    exact MCache.evict_one_length c now hf hpos
  · simp only [if_neg hf]
    omega

theorem MCache.put_after_evict_len (c : MCache K V) (now : Int) (k : K)
    (e : ValueWithTimeout V) (h : c.m.length ≤ c.size) (hpos : 0 < c.size) :
    (mapPut k e (c.evictIfFull now).m).length ≤ c.size := by
  have h1 := MCache.evictIfFull_length_lt c now h hpos
  have h2 := mapPut_length_le k e (c.evictIfFull now).m
  omega

theorem MCache.Set_len (c : MCache K V) (k : K) (v : V) (now : Int)
    (h : c.m.length ≤ c.size) : (c.Set k v now).m.length ≤ c.size := by
  unfold MCache.Set
  by_cases h0 : c.size = 0
  · simp only [if_pos h0]
    exact h
  · simp only [if_neg h0]
    exact MCache.put_after_evict_len c now k ⟨v, none⟩ h (Nat.pos_of_ne_zero h0)

theorem MCache.Set_size (c : MCache K V) (k : K) (v : V) (now : Int) :
    (c.Set k v now).size = c.size := by
  unfold MCache.Set
  by_cases h0 : c.size = 0
  · simp [h0]
  · simp only [if_neg h0]
    exact MCache.evictIfFull_size c now

theorem MCache.SetWithTimeout_len (c : MCache K V) (k : K) (v : V) (timeout now : Int)
    (h : c.m.length ≤ c.size) : (c.SetWithTimeout k v timeout now).m.length ≤ c.size := by
  unfold MCache.SetWithTimeout
  by_cases h0 : c.size = 0
  · simp only [if_pos h0]
    exact h
  · by_cases ht : timeout > 0
    · simp only [if_neg h0, if_pos ht]
      exact MCache.put_after_evict_len c now k ⟨v, some (now + timeout)⟩ h (Nat.pos_of_ne_zero h0)
    · simp only [if_neg h0, if_neg ht]
      exact MCache.Set_len c k v now h

theorem MCache.SetWithTimeout_size (c : MCache K V) (k : K) (v : V) (timeout now : Int) :
    (c.SetWithTimeout k v timeout now).size = c.size := by
  unfold MCache.SetWithTimeout
  by_cases h0 : c.size = 0
  · simp [h0]
  · by_cases ht : timeout > 0
    · simp only [if_neg h0, if_pos ht]
      exact MCache.evictIfFull_size c now
    · simp only [if_neg h0, if_neg ht]
      exact MCache.Set_size c k v now

theorem MCache.NotFoundSet_len (c : MCache K V) (k : K) (v : V) (now : Int)
    (h : c.m.length ≤ c.size) : (c.NotFoundSet k v now).2.m.length ≤ c.size := by
  unfold MCache.NotFoundSet
  by_cases h0 : c.size = 0
  · simp only [if_pos h0]
    exact h
  · simp only [if_neg h0]
    rcases hk : mapLookup k c.m with _ | e
    · simp only
      exact MCache.put_after_evict_len c now k ⟨v, none⟩ h (Nat.pos_of_ne_zero h0)
    · simp only
      exact h

theorem MCache.NotFoundSet_size (c : MCache K V) (k : K) (v : V) (now : Int) :
    (c.NotFoundSet k v now).2.size = c.size := by
  unfold MCache.NotFoundSet
  by_cases h0 : c.size = 0
  · simp [h0]
  · simp only [if_neg h0]
    rcases hk : mapLookup k c.m with _ | e
    · simp only
      exact MCache.evictIfFull_size c now
    · simp only

theorem MCache.NotFoundSetWithTimeout_len (c : MCache K V) (k : K) (v : V)
    (timeout now : Int) (h : c.m.length ≤ c.size) :
    (c.NotFoundSetWithTimeout k v timeout now).2.m.length ≤ c.size := by
  unfold MCache.NotFoundSetWithTimeout
  by_cases h0 : c.size = 0
  · simp only [if_pos h0]
    exact h
  · simp only [if_neg h0]
    rcases hk : mapLookup k c.m with _ | e
    · simp only
      exact MCache.put_after_evict_len c now k _ h (Nat.pos_of_ne_zero h0)
    · simp only
      exact h

theorem MCache.NotFoundSetWithTimeout_size (c : MCache K V) (k : K) (v : V)
    (timeout now : Int) : (c.NotFoundSetWithTimeout k v timeout now).2.size = c.size := by
  unfold MCache.NotFoundSetWithTimeout
  by_cases h0 : c.size = 0
  · simp [h0]
  · simp only [if_neg h0]
    rcases hk : mapLookup k c.m with _ | e
    · simp only
      exact MCache.evictIfFull_size c now
    · simp only

theorem mcacheApplyOp_len (c : MCache K V) (op : CacheOp K V)
    (h : c.m.length ≤ c.size) : (c.applyOp op).m.length ≤ c.size := by
  cases op with
  | set k v now => exact MCache.Set_len c k v now h
  | setWithTimeout k v ttl now => exact MCache.SetWithTimeout_len c k v ttl now h
  | notFoundSet k v now => exact MCache.NotFoundSet_len c k v now h
  | notFoundSetWithTimeout k v ttl now => exact MCache.NotFoundSetWithTimeout_len c k v ttl now h

theorem mcacheApplyOp_size (c : MCache K V) (op : CacheOp K V) :
    (c.applyOp op).size = c.size := by
  cases op with
  | set k v now => exact MCache.Set_size c k v now
  | setWithTimeout k v ttl now => exact MCache.SetWithTimeout_size c k v ttl now
  | notFoundSet k v now => exact MCache.NotFoundSet_size c k v now
  | notFoundSetWithTimeout k v ttl now => exact MCache.NotFoundSetWithTimeout_size c k v ttl now

theorem mcacheApplyOps_inv (c : MCache K V) (ops : List (CacheOp K V))
    (h : c.m.length ≤ c.size) :
    (c.applyOps ops).m.length ≤ c.size ∧ (c.applyOps ops).size = c.size := by
  induction ops generalizing c with
  | nil => exact ⟨h, rfl⟩
  | cons op rest ih =>
    have h1 := mcacheApplyOp_len c op h
    have h2 := mcacheApplyOp_size c op
    have h3 := ih (c.applyOp op) (by rw [h2]; exact h1)
    rw [h2] at h3
    exact h3

theorem mcacheApplyOp_size_zero (c : MCache K V) (op : CacheOp K V)
    (h : c.size = 0) : c.applyOp op = c := by
  cases op with
  | set k v now => unfold MCache.applyOp MCache.Set; simp [h]
  | setWithTimeout k v ttl now => unfold MCache.applyOp MCache.SetWithTimeout; simp [h]
  | notFoundSet k v now => unfold MCache.applyOp MCache.NotFoundSet; simp [h]
  | notFoundSetWithTimeout k v ttl now =>
    unfold MCache.applyOp MCache.NotFoundSetWithTimeout; simp [h]

theorem mcacheApplyOps_size_zero (c : MCache K V) (ops : List (CacheOp K V))
    (h : c.size = 0) : c.applyOps ops = c := by
  induction ops with
  | nil => rfl
  | cons op rest ih =>
    show (c.applyOp op).applyOps rest = c
    rw [mcacheApplyOp_size_zero c op h]
    exact ih

theorem lruSplit_eq (k : K) (l : List (LruItem K V))
    (b : List (LruItem K V)) (it : LruItem K V) (a : List (LruItem K V))
    (h : lruSplit k l = some (b, it, a)) : l = b ++ it :: a := by
  induction l generalizing b with
  | nil => simp [lruSplit] at h
  | cons x rest ih =>
    by_cases hx : x.key = k
    · simp only [lruSplit, if_pos hx, Option.some.injEq, Prod.mk.injEq] at h
      obtain ⟨h1, h2, h3⟩ := h
      subst h1 h2 h3
      simp
    · simp only [lruSplit, if_neg hx] at h
      rcases hr : lruSplit k rest with _ | s
      · rw [hr] at h
        simp at h
      · obtain ⟨b2, e2, a2⟩ := s
        rw [hr] at h
        simp only [Option.some.injEq, Prod.mk.injEq] at h
        obtain ⟨h1, h2, h3⟩ := h
        subst h1 h2 h3
        simp [ih b2 hr]

theorem lruSet_len (c : LRUCache K V) (k : K) (v : V) (exp now : Int)
    (h : c.list.length ≤ c.size) (hpos : 0 < c.size) :
    (c.set k v exp now).list.length ≤ c.size := by
  unfold LRUCache.set
  rcases hs : lruSplit k c.list with _ | s
  · simp only [hs]
    by_cases hf : c.list.length = c.size
    · simp only [if_pos hf, List.length_cons]
      have hd : c.list.dropLast.length = c.list.length - 1 := List.length_dropLast _
      omega
    · simp only [if_neg hf, List.length_cons]
      omega
  · obtain ⟨b, it, a⟩ := s
    have he := lruSplit_eq k c.list b it a hs
    simp only [hs, List.length_cons, List.length_append]
    rw [he] at h
    simp only [List.length_append, List.length_cons] at h
    omega

theorem lruSet_size (c : LRUCache K V) (k : K) (v : V) (exp now : Int) :
    (c.set k v exp now).size = c.size := by
  unfold LRUCache.set
  rcases hs : lruSplit k c.list with _ | s
  · simp only [hs]
  · obtain ⟨b, it, a⟩ := s
    simp only [hs]

theorem lruApplyOp_len (c : LRUCache K V) (op : CacheOp K V)
    (h : c.list.length ≤ c.size) (hpos : 0 < c.size) :
    (c.applyOp op).list.length ≤ c.size := by
  cases op with
  | set k v now => exact lruSet_len c k v 0 now h hpos
  | setWithTimeout k v ttl now => exact lruSet_len c k v ttl now h hpos
  | notFoundSet k v now =>
    unfold LRUCache.applyOp LRUCache.NotFoundSet
    rcases hs : lruSplit k c.list with _ | s
    · simp only [hs]
      exact lruSet_len c k v 0 now h hpos
    · simp only [hs]
      exact h
  | notFoundSetWithTimeout k v ttl now =>
    unfold LRUCache.applyOp LRUCache.NotFoundSetWithTimeout
    rcases hs : lruSplit k c.list with _ | s
    · simp only [hs]
      exact lruSet_len c k v ttl now h hpos
    · simp only [hs]
      exact h

theorem lruApplyOp_size (c : LRUCache K V) (op : CacheOp K V) :
    (c.applyOp op).size = c.size := by
  cases op with
  | set k v now => exact lruSet_size c k v 0 now
  | setWithTimeout k v ttl now => exact lruSet_size c k v ttl now
  | notFoundSet k v now =>
    unfold LRUCache.applyOp LRUCache.NotFoundSet
    rcases hs : lruSplit k c.list with _ | s
    · simp only [hs]
      exact lruSet_size c k v 0 now
    · simp only [hs]
  | notFoundSetWithTimeout k v ttl now =>
    unfold LRUCache.applyOp LRUCache.NotFoundSetWithTimeout
    rcases hs : lruSplit k c.list with _ | s
    · simp only [hs]
      exact lruSet_size c k v ttl now
    · simp only [hs]

theorem lruApplyOps_inv (c : LRUCache K V) (ops : List (CacheOp K V))
    (h : c.list.length ≤ c.size) (hpos : 0 < c.size) :
    (c.applyOps ops).list.length ≤ c.size ∧ (c.applyOps ops).size = c.size := by
  induction ops generalizing c with
  | nil => exact ⟨h, rfl⟩
  | cons op rest ih =>
    have h1 := lruApplyOp_len c op h hpos
    have h2 := lruApplyOp_size c op
    have h3 := ih (c.applyOp op) (by rw [h2]; exact h1) (by rw [h2]; exact hpos)
    rw [h2] at h3
    exact h3

theorem lfuSplit_eq (k : K) (l : List (LfuItem K V))
    (b : List (LfuItem K V)) (it : LfuItem K V) (a : List (LfuItem K V))
    (h : lfuSplit k l = some (b, it, a)) : l = b ++ it :: a := by
  induction l generalizing b with
  | nil => simp [lfuSplit] at h
  | cons x rest ih =>
    by_cases hx : x.key = k
    · simp only [lfuSplit, if_pos hx, Option.some.injEq, Prod.mk.injEq] at h
      obtain ⟨h1, h2, h3⟩ := h
      subst h1 h2 h3
      simp
    · simp only [lfuSplit, if_neg hx] at h
      rcases hr : lfuSplit k rest with _ | s
      · rw [hr] at h
        simp at h
      · obtain ⟨b2, e2, a2⟩ := s
        rw [hr] at h
        simp only [Option.some.injEq, Prod.mk.injEq] at h
        obtain ⟨h1, h2, h3⟩ := h
        subst h1 h2 h3
        simp [ih b2 hr]

theorem splitLastLt_eq (f : Nat) (l : List (LfuItem K V))
    (p : List (LfuItem K V)) (hit : LfuItem K V) (q : List (LfuItem K V))
    (h : splitLastLt f l = some (p, hit, q)) :
    l = p ++ hit :: q ∧ hit.freq < f := by
  induction l generalizing p with
  | nil => simp [splitLastLt] at h
  | cons x rest ih =>
    simp only [splitLastLt] at h
    rcases hr : splitLastLt f rest with _ | s
    · rw [hr] at h
      by_cases hx : x.freq < f
      · simp only [if_pos hx, Option.some.injEq, Prod.mk.injEq] at h
        obtain ⟨h1, h2, h3⟩ := h
        subst h1 h2 h3
        exact ⟨by simp, hx⟩
      · simp [hx] at h
    · obtain ⟨p2, h2, q2⟩ := s
      rw [hr] at h
      simp only [Option.some.injEq, Prod.mk.injEq] at h
      obtain ⟨ha, hb, hc⟩ := h
      subst ha hb hc
      have := ih p2 hr
      exact ⟨by simp [this.1], this.2⟩

theorem splitLastLt_none_of_ge (f : Nat) (l : List (LfuItem K V))
    (h : ∀ it ∈ l, f ≤ it.freq) : splitLastLt f l = none := by
  induction l with
  | nil => rfl
  | cons x rest ih =>
    have hx : ¬ x.freq < f := by
      have := h x (by simp)
      omega
    simp only [splitLastLt, ih (fun it hit => h it (by simp [hit])), if_neg hx]

theorem lfuMoveList_length (b : List (LfuItem K V)) (e : LfuItem K V)
    (a : List (LfuItem K V)) :
    (lfuMoveList b e a).length = b.length + a.length + 1 := by
  unfold lfuMoveList
  match b with
  | [] => simp
  | front :: mids =>
    rcases hs : splitLastLt e.freq mids with _ | s
    · simp only [hs]
      by_cases hf : front.freq = e.freq <;> simp [hf] <;> omega
    · obtain ⟨p, hit, q⟩ := s
      have := (splitLastLt_eq e.freq mids p hit q hs).1
      simp only [hs, List.length_append, List.length_cons]
      rw [this]
      simp only [List.length_append, List.length_cons]
      omega

theorem lfuSet_len (c : LFUCache K V) (k : K) (v : V) (exp now : Int)
    (h : c.list.length ≤ c.size) (hpos : 0 < c.size) :
    (c.set k v exp now).list.length ≤ c.size := by
  unfold LFUCache.set
  rcases hs : lfuSplit k c.list with _ | s
  · simp only [hs]
    rw [lfuMoveList_length]
    by_cases hf : c.list.length = c.size
    · simp only [if_pos hf]
      have hd : c.list.dropLast.length = c.list.length - 1 := List.length_dropLast _
      simp only [List.length_nil]
      omega
    · simp only [if_neg hf, List.length_nil]
      omega
  · obtain ⟨b, it, a⟩ := s
    have he := lfuSplit_eq k c.list b it a hs
    simp only [hs]
    rw [lfuMoveList_length]
    rw [he] at h
    simp only [List.length_append, List.length_cons] at h
    omega

theorem lfuSet_size (c : LFUCache K V) (k : K) (v : V) (exp now : Int) :
    (c.set k v exp now).size = c.size := by
  unfold LFUCache.set
  rcases hs : lfuSplit k c.list with _ | s
  · simp only [hs]
  · obtain ⟨b, it, a⟩ := s
    simp only [hs]

theorem lfuApplyOp_len (c : LFUCache K V) (op : CacheOp K V)
    (h : c.list.length ≤ c.size) (hpos : 0 < c.size) :
    (c.applyOp op).list.length ≤ c.size := by
  cases op with
  | set k v now => exact lfuSet_len c k v 0 now h hpos
  | setWithTimeout k v ttl now => exact lfuSet_len c k v ttl now h hpos
  | notFoundSet k v now =>
    unfold LFUCache.applyOp LFUCache.NotFoundSet
    rcases hs : lfuSplit k c.list with _ | s
    · simp only [hs]
      exact lfuSet_len c k v 0 now h hpos
    · simp only [hs]
      exact h
  | notFoundSetWithTimeout k v ttl now =>
    unfold LFUCache.applyOp LFUCache.NotFoundSetWithTimeout
    rcases hs : lfuSplit k c.list with _ | s
    · simp only [hs]
      exact lfuSet_len c k v ttl now h hpos
    · simp only [hs]
      exact h

theorem lfuApplyOp_size (c : LFUCache K V) (op : CacheOp K V) :
    (c.applyOp op).size = c.size := by
  cases op with
  | set k v now => exact lfuSet_size c k v 0 now
  | setWithTimeout k v ttl now => exact lfuSet_size c k v ttl now
  | notFoundSet k v now =>
    unfold LFUCache.applyOp LFUCache.NotFoundSet
    rcases hs : lfuSplit k c.list with _ | s
    · simp only [hs]
      exact lfuSet_size c k v 0 now
    · simp only [hs]
  | notFoundSetWithTimeout k v ttl now =>
    unfold LFUCache.applyOp LFUCache.NotFoundSetWithTimeout
    rcases hs : lfuSplit k c.list with _ | s
    · simp only [hs]
      exact lfuSet_size c k v ttl now
    · simp only [hs]

theorem lfuApplyOps_inv (c : LFUCache K V) (ops : List (CacheOp K V))
    (h : c.list.length ≤ c.size) (hpos : 0 < c.size) :
    (c.applyOps ops).list.length ≤ c.size ∧ (c.applyOps ops).size = c.size := by
  induction ops generalizing c with
  | nil => exact ⟨h, rfl⟩
  | cons op rest ih =>
    have h1 := lfuApplyOp_len c op h hpos
    have h2 := lfuApplyOp_size c op
    have h3 := ih (c.applyOp op) (by rw [h2]; exact h1) (by rw [h2]; exact hpos)
    rw [h2] at h3
    exact h3

theorem lruTransferAux_spec (now : Int) (l : List (LruItem K V)) (dst : LRUCache K V) :
    (lruTransferAux now l dst).1 = l.filter (fun it => expiredBefore now it.expireAt)
  ∧ (lruTransferAux now l dst).2 =
      (l.filter (fun it => !expiredBefore now it.expireAt)).foldl
        (fun d it => d.Set it.key it.value now) dst := by
  induction l generalizing dst with
  | nil => simp [lruTransferAux]
  | cons it rest ih =>
    cases he : expiredBefore now it.expireAt with
    | true => simp [lruTransferAux, he, ih dst]
    | false => simp [lruTransferAux, he, ih (dst.Set it.key it.value now)]

theorem lruCopyAux_spec (now : Int) (l : List (LruItem K V)) (dst : LRUCache K V) :
    lruCopyAux now l dst =
      (l.filter (fun it => !expiredBefore now it.expireAt)).foldl
        (fun d it => d.Set it.key it.value now) dst := by
  induction l generalizing dst with
  | nil => simp [lruCopyAux]
  | cons it rest ih =>
    cases he : expiredBefore now it.expireAt with
    | true => simp [lruCopyAux, he, ih dst]
    | false => simp [lruCopyAux, he, ih (dst.Set it.key it.value now)]

theorem lfuTransferAux_spec (now : Int) (l : List (LfuItem K V)) (dst : LFUCache K V) :
    (lfuTransferAux now l dst).1 = l.filter (fun it => expiredBefore now it.expireAt)
  ∧ (lfuTransferAux now l dst).2 =
      (l.filter (fun it => !expiredBefore now it.expireAt)).foldl
        (fun d it => d.Set it.key it.value now) dst := by
  induction l generalizing dst with
  | nil => simp [lfuTransferAux]
  | cons it rest ih =>
    cases he : expiredBefore now it.expireAt with
    | true => simp [lfuTransferAux, he, ih dst]
    | false => simp [lfuTransferAux, he, ih (dst.Set it.key it.value now)]

theorem lfuCopyAux_spec (now : Int) (l : List (LfuItem K V)) (dst : LFUCache K V) :
    lfuCopyAux now l dst =
      (l.filter (fun it => !expiredBefore now it.expireAt)).foldl
        (fun d it => d.Set it.key it.value now) dst := by
  induction l generalizing dst with
  | nil => simp [lfuCopyAux]
  | cons it rest ih =>
    cases he : expiredBefore now it.expireAt with
    | true => simp [lfuCopyAux, he, ih dst]
    | false => simp [lfuCopyAux, he, ih (dst.Set it.key it.value now)]

theorem mcacheSendAll_eq_foldl (now : Int) (l : List (K × ValueWithTimeout V))
    (dst : MCache K V) :
    mcacheSendAll now l dst
      = l.foldl (fun d kv => d.setValueWithTimeout kv.1 kv.2 now) dst := by
  induction l generalizing dst with
  | nil => rfl
  | cons kv rest ih =>
    obtain ⟨k, e⟩ := kv
    simp [mcacheSendAll, ih]

theorem foldl_skip_count {A : Type} (p : A → Bool) (l : List A) (acc : Nat) :
    l.foldl (fun count it => if p it then count else count + 1) acc
      = acc + (l.filter (fun it => !p it)).length := by
  induction l generalizing acc with
  | nil => simp
  | cons x rest ih =>
    cases hx : p x with
    | true => simp [hx, ih]
    | false =>
      simp only [List.foldl_cons, List.filter_cons, hx, if_neg]
      rw [ih]
      simp
      omega

/-! ## Claim theorems -/

/-- C1 (amended): for every sequence of `Set`, `SetWithTimeout`,
`NotFoundSet` and `NotFoundSetWithTimeout` calls, the Manual engine never
stores more than `capacity` entries and, at capacity 0, every `Set*`
operation is a silent no-op that leaves the engine untouched; the LRU and
LFU engines respect the capacity bound whenever `capacity > 0` (at
capacity 0 they insert without bound — see the counterexample). -/
theorem claim_C1_theorem (size : Nat) (tmIvl : Int) (ops : List (CacheOp K V)) :
    ((newManual size tmIvl : MCache K V).applyOps ops).m.length ≤ size
  ∧ (size = 0 → (newManual size tmIvl : MCache K V).applyOps ops = newManual size tmIvl)
  ∧ (0 < size → ((NewLRU size : LRUCache K V).applyOps ops).Len ≤ size)
  ∧ (0 < size → ((NewLFU size : LFUCache K V).applyOps ops).Len ≤ size) := by
  refine ⟨?_, ?_, ?_, ?_⟩
  · exact (mcacheApplyOps_inv (newManual size tmIvl) ops (by simp [newManual])).1
  · intro h0
    exact mcacheApplyOps_size_zero _ ops h0
  · intro hpos
    have := (lruApplyOps_inv (NewLRU size) ops (by simp [NewLRU]) hpos).1
    simpa [LRUCache.Len] using this
  · intro hpos
    have := (lfuApplyOps_inv (NewLFU size) ops (by simp [NewLFU]) hpos).1
    simpa [LFUCache.Len] using this

/-- Witness for C1: capacity 2, three distinct inserts on each engine. -/
theorem claim_C1_witness :
    ((newManual 2 0 : MCache Nat Nat).applyOps
        [CacheOp.set 1 1 0, CacheOp.set 2 2 0, CacheOp.set 3 3 0]).m.length ≤ 2
  ∧ ((NewLRU 2 : LRUCache Nat Nat).applyOps
        [CacheOp.set 1 1 0, CacheOp.set 2 2 0, CacheOp.set 3 3 0]).Len ≤ 2
  ∧ ((NewLFU 2 : LFUCache Nat Nat).applyOps
        [CacheOp.set 1 1 0, CacheOp.set 2 2 0, CacheOp.set 3 3 0]).Len ≤ 2 :=
  ⟨(claim_C1_theorem 2 0 [CacheOp.set 1 1 0, CacheOp.set 2 2 0, CacheOp.set 3 3 0]).1,
   (claim_C1_theorem 2 0 [CacheOp.set 1 1 0, CacheOp.set 2 2 0, CacheOp.set 3 3 0]).2.2.1
     (by decide),
   (claim_C1_theorem 2 0 [CacheOp.set 1 1 0, CacheOp.set 2 2 0, CacheOp.set 3 3 0]).2.2.2
     (by decide)⟩

/-- Counterexample to C1 as stated: at capacity 0 the LRU engine is not a
no-op — one `Set` stores an entry, so the stored count 1 exceeds the
configured capacity 0 (the LFU engine behaves the same way; only the
Manual engine rejects writes at capacity 0). -/
theorem claim_C1_counterexample :
    ((NewLRU 0 : LRUCache Nat Nat).Set 1 1 0).Len = 1
  ∧ ¬ (((NewLRU 0 : LRUCache Nat Nat).Set 1 1 0).Len ≤ 0)
  ∧ ((NewLFU 0 : LFUCache Nat Nat).Set 1 1 0).Len = 1 := by decide

/-- C2 (code bug, Manual engine): at capacity 2 with two live entries,
`Set` of the new key 3 should evict exactly one victim; but in
`MCache.evict` the expired-entry scan deletes nothing (no entry is
expired), and the fallback `for counter < i { for k := range c.m }` loop
has no break, so one pass deletes both entries — the final map holds only
the new key instead of two entries. -/
theorem claim_C2_theorem :
    (MCache.Set
        ({ m := [(1, ⟨10, none⟩), (2, ⟨20, none⟩)], size := 2,
           timeInterval := 0, stopClosed := false } : MCache Nat Nat) 3 30 0).m
      = [(3, ⟨30, none⟩)]
  ∧ (MCache.Set
        ({ m := [(1, ⟨10, none⟩), (2, ⟨20, none⟩)], size := 2,
           timeInterval := 0, stopClosed := false } : MCache Nat Nat) 3 30 0).m.length = 1
  ∧ (MCache.Set
        ({ m := [(1, ⟨10, some 3⟩), (2, ⟨20, none⟩)], size := 2,
           timeInterval := 0, stopClosed := false } : MCache Nat Nat) 3 30 5).m
      = [(2, ⟨20, none⟩), (3, ⟨30, none⟩)] := by decide

/-- C3 (code bug, LFU engine): after `Set 1`, `Set 2`, `Get 1`, `Get 1`
the list is `[2 (freq 1), 1 (freq 3)]` — the walk in `LFUCache.move`
never compares the front node's frequency, so key 1 stays at the back
despite its higher frequency — and the subsequent `Set 3` therefore
evicts key 1 (frequency 3) instead of the lower-frequency key 2. -/
theorem claim_C3_theorem :
    (((((NewLFU 2 : LFUCache Nat Nat).Set 1 10 0).Set 2 20 0).Get 1 0).2.Get 1 0).2.list
      = [⟨2, 20, 1, none⟩, ⟨1, 10, 3, none⟩]
  ∧ lfuScenarioC3.list.map (fun it => it.key) = [3, 2]
  ∧ (lfuScenarioC3.Get 1 0).1 = none
  ∧ (lfuScenarioC3.Get 2 0).1 = some 20
  ∧ (lfuScenarioC3.Get 3 0).1 = some 30 := by decide

/-- Counterexample to C4 as stated: with two frequency-1 entries 1, 2
(inserted in that order) in a capacity-2 LFU cache, inserting the new
key 3 evicts the *oldest* entry (key 1), not the most recently inserted
one (key 2) as the claim requires. -/
theorem claim_C4_counterexample :
    lfuScenarioC4.list.map (fun it => it.key) = [3, 2]
  ∧ (lfuScenarioC4.Get 1 0).1 = none
  ∧ (lfuScenarioC4.Get 2 0).1 = some 20 := by decide

/-- C4 (amended): inserting a new key gives it frequency 1, pushes its
node at the back and then `move` relocates it: when every stored
frequency is at least 1, the new node ends at the front of the list if
the current front node has frequency 1, and otherwise immediately after
the front node.  In particular, among entries of equal frequency 1 the
least recently inserted one is evicted first (the opposite tie-break of
the claim). -/
theorem claim_C4_theorem (c : LFUCache K V) (k : K) (v : V) (exp now : Int)
    (habs : lfuSplit k c.list = none)
    (hfreq : ∀ it ∈ c.list, 1 ≤ it.freq) :
    (c.set k v exp now).list =
      (match (if c.list.length = c.size then c.list.dropLast else c.list) with
       | [] => [⟨k, v, 1, if exp > 0 then some (now + exp) else none⟩]
       | f :: rest =>
         if f.freq = 1 then
           ⟨k, v, 1, if exp > 0 then some (now + exp) else none⟩ :: f :: rest
         else
           f :: ⟨k, v, 1, if exp > 0 then some (now + exp) else none⟩ :: rest) := by
  unfold LFUCache.set
  simp only [habs]
  have hsub : ∀ it ∈ (if c.list.length = c.size then c.list.dropLast else c.list),
      1 ≤ it.freq := by
    intro it hmem
    by_cases hf : c.list.length = c.size
    · rw [if_pos hf] at hmem
      exact hfreq it (List.mem_of_mem_dropLast hmem)
    · rw [if_neg hf] at hmem
      exact hfreq it hmem
  rcases hl : (if c.list.length = c.size then c.list.dropLast else c.list) with _ | ⟨f, rest⟩
  · rfl
  · rw [hl] at hsub
    have hrest : splitLastLt 1 rest = none :=
      splitLastLt_none_of_ge 1 rest (fun it hmem => hsub it (by simp [hmem]))
    show lfuMoveList (f :: rest) _ [] = _
    unfold lfuMoveList
    simp only [hrest]
    by_cases hfr : f.freq = 1
    · simp [hfr]
    · simp [hfr]

/-- Witness for C4: a capacity-2 LFU cache holding one frequency-1 entry;
inserting key 1 places its node at the front. -/
theorem claim_C4_witness :
    (LFUCache.set ({ list := [⟨5, 50, 1, none⟩], size := 2 } : LFUCache Nat Nat) 1 10 0 0).list
      = [⟨1, 10, 1, none⟩, ⟨5, 50, 1, none⟩] := by
  have h := claim_C4_theorem ({ list := [⟨5, 50, 1, none⟩], size := 2 } : LFUCache Nat Nat)
    1 10 0 0 (by decide) (by decide)
  simpa using h

/-- C5: `Get` of a present, unexpired key moves its node to the front of
the LRU eviction list and returns its value; consequently, in the
capacity-2 scenario `Set 1`, `Set 2`, `Get 1`, `Set 3`, the evicted key
is 2 (the least recently used) and not 1: the final list holds keys
`[3, 1]`, key 2 is gone, keys 1 and 3 are retrievable. -/
theorem claim_C5_theorem :
    (∀ (c : LRUCache K V) (k : K) (now : Int) (b : List (LruItem K V))
        (it : LruItem K V) (a : List (LruItem K V)),
        lruSplit k c.list = some (b, it, a) →
        expiredBefore now it.expireAt = false →
        c.Get k now = (some it.value, { c with list := it :: (b ++ a) }))
  ∧ lruScenarioC5.list.map (fun it => it.key) = [3, 1]
  ∧ (lruScenarioC5.Get 2 0).1 = none
  ∧ (lruScenarioC5.Get 1 0).1 = some 10
  ∧ (lruScenarioC5.Get 3 0).1 = some 30 := by
  refine ⟨?_, by decide, by decide, by decide, by decide⟩
  intro c k now b it a hs he
  unfold LRUCache.Get
  simp [hs, he]

/-- Witness for C5: a one-entry LRU cache; `Get` returns the stored value
and keeps the node at the front. -/
theorem claim_C5_witness :
    LRUCache.Get ({ list := [⟨1, 10, none⟩], size := 2 } : LRUCache Nat Nat) 1 0
      = (some 10, { list := [⟨1, 10, none⟩], size := 2 }) :=
  claim_C5_theorem.1 { list := [⟨1, 10, none⟩], size := 2 } 1 0 [] ⟨1, 10, none⟩ []
    (by decide) (by decide)

/-- C6: for each engine, `Get` of an absent key returns not-found and
leaves the state unchanged; `Get` of a present key whose expiration
instant is in the past returns not-found and deletes the entry (the map
entry, and for LRU/LFU also its eviction-list node); `Get` of a present
unexpired key returns its latest stored value. -/
theorem claim_C6_theorem :
    (∀ (c : MCache K V) (k : K) (now : Int),
        mapLookup k c.m = none → c.Get k now = (none, c))
  ∧ (∀ (c : MCache K V) (k : K) (now : Int) (e : ValueWithTimeout V),
        mapLookup k c.m = some e → expiredBefore now e.expireAt = true →
        c.Get k now = (none, { c with m := mapErase k c.m }))
  ∧ (∀ (c : MCache K V) (k : K) (now : Int) (e : ValueWithTimeout V),
        mapLookup k c.m = some e → expiredBefore now e.expireAt = false →
        c.Get k now = (some e.value, c))
  ∧ (∀ (c : LRUCache K V) (k : K) (now : Int),
        lruSplit k c.list = none → c.Get k now = (none, c))
  ∧ (∀ (c : LRUCache K V) (k : K) (now : Int) (b : List (LruItem K V))
        (it : LruItem K V) (a : List (LruItem K V)),
        lruSplit k c.list = some (b, it, a) → expiredBefore now it.expireAt = true →
        c.Get k now = (none, { c with list := b ++ a }))
  ∧ (∀ (c : LRUCache K V) (k : K) (now : Int) (b : List (LruItem K V))
        (it : LruItem K V) (a : List (LruItem K V)),
        lruSplit k c.list = some (b, it, a) → expiredBefore now it.expireAt = false →
        (c.Get k now).1 = some it.value)
  ∧ (∀ (c : LFUCache K V) (k : K) (now : Int),
        lfuSplit k c.list = none → c.Get k now = (none, c))
  ∧ (∀ (c : LFUCache K V) (k : K) (now : Int) (b : List (LfuItem K V))
        (it : LfuItem K V) (a : List (LfuItem K V)),
        lfuSplit k c.list = some (b, it, a) → expiredBefore now it.expireAt = true →
        c.Get k now = (none, { c with list := b ++ a }))
  ∧ (∀ (c : LFUCache K V) (k : K) (now : Int) (b : List (LfuItem K V))
        (it : LfuItem K V) (a : List (LfuItem K V)),
        lfuSplit k c.list = some (b, it, a) → expiredBefore now it.expireAt = false →
        (c.Get k now).1 = some it.value) := by
  refine ⟨?_, ?_, ?_, ?_, ?_, ?_, ?_, ?_, ?_⟩
  · intro c k now hs
    unfold MCache.Get
    simp [hs]
  · intro c k now e hs he
    unfold MCache.Get
    simp [hs, he]
  · intro c k now e hs he
    unfold MCache.Get
    simp [hs, he]
  · intro c k now hs
    unfold LRUCache.Get
    simp [hs]
  · intro c k now b it a hs he
    unfold LRUCache.Get
    simp [hs, he]
  · intro c k now b it a hs he
    unfold LRUCache.Get
    simp [hs, he]
  · intro c k now hs
    unfold LFUCache.Get
    simp [hs]
  · intro c k now b it a hs he
    unfold LFUCache.Get
    simp [hs, he]
  · intro c k now b it a hs he
    unfold LFUCache.Get
    simp [hs, he]

/-- Witness for C6: a Manual engine holding one entry expired at 3,
queried at 10: not found, and the entry is deleted. -/
theorem claim_C6_witness :
    MCache.Get ({ m := [(1, ⟨5, some 3⟩)], size := 2, timeInterval := 0,
                  stopClosed := false } : MCache Nat Nat) 1 10
      = (none, { m := [], size := 2, timeInterval := 0, stopClosed := false }) := by
  have h := claim_C6_theorem.2.1
    ({ m := [(1, ⟨5, some 3⟩)], size := 2, timeInterval := 0, stopClosed := false } : MCache Nat Nat)
    1 10 ⟨5, some 3⟩ (by decide) (by decide)
  simpa using h

/-- C7 (amended): for the LRU and LFU engines, `TransferTo` keeps in the
source exactly the currently-expired entries (so the source retains no
previously-unexpired key) and feeds exactly the currently-unexpired
entries, in order, to the destination's `Set`; `CopyTo` feeds the same
entries and does not touch the source.  For the Manual engine,
`TransferTo` feeds all entries — expired ones included — to
`dst.setValueWithTimeout` and resets the source map to empty, and
`CopyTo` feeds all entries without touching the source. -/
theorem claim_C7_theorem :
    (∀ (now : Int) (src dst : LRUCache K V),
        (src.TransferTo dst now).1
            = { src with list := src.list.filter (fun it => expiredBefore now it.expireAt) }
      ∧ (src.TransferTo dst now).2
            = (src.list.filter (fun it => !expiredBefore now it.expireAt)).foldl
                (fun d it => d.Set it.key it.value now) dst
      ∧ src.CopyTo dst now
            = (src.list.filter (fun it => !expiredBefore now it.expireAt)).foldl
                (fun d it => d.Set it.key it.value now) dst)
  ∧ (∀ (now : Int) (src dst : LFUCache K V),
        (src.TransferTo dst now).1
            = { src with list := src.list.filter (fun it => expiredBefore now it.expireAt) }
      ∧ (src.TransferTo dst now).2
            = (src.list.filter (fun it => !expiredBefore now it.expireAt)).foldl
                (fun d it => d.Set it.key it.value now) dst
      ∧ src.CopyTo dst now
            = (src.list.filter (fun it => !expiredBefore now it.expireAt)).foldl
                (fun d it => d.Set it.key it.value now) dst)
  ∧ (∀ (now : Int) (src dst : MCache K V),
        (src.TransferTo dst now).1 = { src with m := [] }
      ∧ (src.TransferTo dst now).2
            = src.m.foldl (fun d kv => d.setValueWithTimeout kv.1 kv.2 now) dst
      ∧ src.CopyTo dst now
            = src.m.foldl (fun d kv => d.setValueWithTimeout kv.1 kv.2 now) dst) := by
  refine ⟨?_, ?_, ?_⟩
  · intro now src dst
    refine ⟨?_, ?_, ?_⟩
    · unfold LRUCache.TransferTo
      rw [(lruTransferAux_spec now src.list dst).1]
    · unfold LRUCache.TransferTo
      exact (lruTransferAux_spec now src.list dst).2
    · unfold LRUCache.CopyTo
      exact lruCopyAux_spec now src.list dst
  · intro now src dst
    refine ⟨?_, ?_, ?_⟩
    · unfold LFUCache.TransferTo
      rw [(lfuTransferAux_spec now src.list dst).1]
    · unfold LFUCache.TransferTo
      exact (lfuTransferAux_spec now src.list dst).2
    · unfold LFUCache.CopyTo
      exact lfuCopyAux_spec now src.list dst
  · intro now src dst
    refine ⟨rfl, ?_, ?_⟩
    · unfold MCache.TransferTo
      exact mcacheSendAll_eq_foldl now src.m dst
    · unfold MCache.CopyTo
      exact mcacheSendAll_eq_foldl now src.m dst

/-- Counterexample to C7 as stated: a Manual source holding a single
entry expired at 3, transferred at instant 10.  C7 says only
currently-unexpired entries (none here) are moved into the destination,
but the destination ends up holding the expired entry. -/
theorem claim_C7_counterexample :
    (MCache.TransferTo
        ({ m := [(1, ⟨5, some 3⟩)], size := 2, timeInterval := 0,
           stopClosed := false } : MCache Nat Nat)
        (newManual 2 0) 10).2.m = [(1, ⟨5, some 3⟩)]
  ∧ expiredBefore 10 (some 3) = true := by decide

/-- C8 (amended): `Purge` on the LRU and LFU engines is always safe and
idempotent (it empties the cache); on the Manual engine a single `Purge`
empties the cache and, when the sweeper was started, stops it by closing
the stop channel, and repeated `Purge` is safe when the sweeper was never
started (non-positive sweep interval); but a second `Purge` on a Manual
engine whose sweeper was started sends on the already-closed stop
channel, a run-time panic. -/
theorem claim_C8_theorem :
    (∀ (c : MCache K V), c.timeInterval ≤ 0 →
        c.Purge = Except.ok { c with m := [] }
      ∧ MCache.Purge ({ c with m := [] } : MCache K V) = Except.ok { c with m := [] })
  ∧ (∀ (c : MCache K V), 0 < c.timeInterval → c.stopClosed = false →
        c.Purge = Except.ok { c with m := [], stopClosed := true })
  ∧ (∀ (c : MCache K V), 0 < c.timeInterval → c.stopClosed = true →
        c.Purge = Except.error ())
  ∧ (∀ (c : LRUCache K V), (c.Purge).Purge = c.Purge ∧ (c.Purge).list = [])
  ∧ (∀ (c : LFUCache K V), (c.Purge).Purge = c.Purge ∧ (c.Purge).list = []) := by
  refine ⟨?_, ?_, ?_, ?_, ?_⟩
  · intro c h
    have hn : ¬ (0 < c.timeInterval) := by omega
    constructor
    · unfold MCache.Purge
      simp [hn]
    · unfold MCache.Purge
      simp [hn]
  · intro c h1 h2
    unfold MCache.Purge
    simp [h1, h2]
  · intro c h1 h2
    unfold MCache.Purge
    simp [h1, h2]
  · intro c
    exact ⟨rfl, rfl⟩
  · intro c
    exact ⟨rfl, rfl⟩

/-- Witness for C8: a single `Purge` on a Manual engine with sweep
interval 1 empties the map and marks the stop channel closed. -/
theorem claim_C8_witness :
    MCache.Purge (newManual 2 1 : MCache Nat Nat)
      = Except.ok { m := [], size := 2, timeInterval := 1, stopClosed := true } := by
  have h := claim_C8_theorem.2.1 (newManual 2 1 : MCache Nat Nat) (by decide) rfl
  simpa using h

/-- Counterexample to C8 as stated: on a Manual engine whose sweeper was
started (sweep interval 1) the first `Purge` succeeds but the second
sends on the closed stop channel — a panic, not a safe no-op. -/
theorem claim_C8_counterexample :
    ((newManual 2 1 : MCache Nat Nat).Purge.bind MCache.Purge)
      = Except.error () := rfl

/-- C9 (amended): for the LRU and LFU engines, `Count` returns the number
of stored entries whose expiration is absent or not yet passed (a pure
scan that deletes nothing) and `Len` returns the raw number of stored
entries including not-yet-swept expired ones; the Manual engine's `Count`
instead returns the raw map length, expired entries included (and the
Manual engine has no `Len` method at all). -/
theorem claim_C9_theorem :
    (∀ (c : LRUCache K V) (now : Int),
        c.Count now = specUnexpiredCount now (c.list.map (fun it => it.expireAt))
      ∧ c.Len = c.list.length)
  ∧ (∀ (c : LFUCache K V) (now : Int),
        c.Count now = specUnexpiredCount now (c.list.map (fun it => it.expireAt))
      ∧ c.Len = c.list.length)
  ∧ (∀ (c : MCache K V), c.Count = c.m.length) := by
  refine ⟨?_, ?_, ?_⟩
  · intro c now
    refine ⟨?_, rfl⟩
    unfold LRUCache.Count specUnexpiredCount
    rw [foldl_skip_count]
    rw [List.filter_map]
    simp only [List.length_map, Nat.zero_add]
    rfl
  · intro c now
    refine ⟨?_, rfl⟩
    unfold LFUCache.Count specUnexpiredCount
    rw [foldl_skip_count]
    rw [List.filter_map]
    simp only [List.length_map, Nat.zero_add]
    rfl
  · intro c
    rfl

/-- Counterexample to C9 as stated: a Manual engine holding one entry
expired at 3; at instant 10 the claim says `Count` returns 0 (the number
of unexpired entries), but the code returns the raw map length 1. -/
theorem claim_C9_counterexample :
    MCache.Count ({ m := [(1, ⟨5, some 3⟩)], size := 2, timeInterval := 0,
                    stopClosed := false } : MCache Nat Nat) = 1
  ∧ specUnexpiredCount 10
      (([(1, (⟨5, some 3⟩ : ValueWithTimeout Nat))]).map (fun kv => kv.2.expireAt)) = 0 := by
  decide

/-- C10: a physically-present entry whose expiration instant is in the
past blocks re-insertion on every engine: `NotFoundSet` and
`NotFoundSetWithTimeout` return false and leave the cache unchanged,
even though `Get` of the same key on the same state reports not-found. -/
theorem claim_C10_theorem :
    (∀ (c : MCache K V) (k : K) (v : V) (ttl now : Int) (e : ValueWithTimeout V),
        mapLookup k c.m = some e → expiredBefore now e.expireAt = true →
        c.NotFoundSet k v now = (false, c)
      ∧ c.NotFoundSetWithTimeout k v ttl now = (false, c)
      ∧ (c.Get k now).1 = none)
  ∧ (∀ (c : LRUCache K V) (k : K) (v : V) (ttl now : Int) (b : List (LruItem K V))
        (it : LruItem K V) (a : List (LruItem K V)),
        lruSplit k c.list = some (b, it, a) → expiredBefore now it.expireAt = true →
        c.NotFoundSet k v now = (false, c)
      ∧ c.NotFoundSetWithTimeout k v ttl now = (false, c)
      ∧ (c.Get k now).1 = none)
  ∧ (∀ (c : LFUCache K V) (k : K) (v : V) (ttl now : Int) (b : List (LfuItem K V))
        (it : LfuItem K V) (a : List (LfuItem K V)),
        lfuSplit k c.list = some (b, it, a) → expiredBefore now it.expireAt = true →
        c.NotFoundSet k v now = (false, c)
      ∧ c.NotFoundSetWithTimeout k v ttl now = (false, c)
      ∧ (c.Get k now).1 = none) := by
  refine ⟨?_, ?_, ?_⟩
  · intro c k v ttl now e hs he
    refine ⟨?_, ?_, ?_⟩
    · unfold MCache.NotFoundSet
      by_cases h0 : c.size = 0
      · simp [h0]
      · simp [h0, hs]
    · unfold MCache.NotFoundSetWithTimeout
      by_cases h0 : c.size = 0
      · simp [h0]
      · simp [h0, hs]
    · unfold MCache.Get
      simp [hs, he]
  · intro c k v ttl now b it a hs he
    refine ⟨?_, ?_, ?_⟩
    · unfold LRUCache.NotFoundSet
      simp [hs]
    · unfold LRUCache.NotFoundSetWithTimeout
      simp [hs]
    · unfold LRUCache.Get
      simp [hs, he]
  · intro c k v ttl now b it a hs he
    refine ⟨?_, ?_, ?_⟩
    · unfold LFUCache.NotFoundSet
      simp [hs]
    · unfold LFUCache.NotFoundSetWithTimeout
      simp [hs]
    · unfold LFUCache.Get
      simp [hs, he]

/-- Witness for C10: an LRU cache holding one entry expired at 3; at
instant 10, `NotFoundSet` refuses to insert and `Get` reports not-found. -/
theorem claim_C10_witness :
    LRUCache.NotFoundSet ({ list := [⟨1, 5, some 3⟩], size := 2 } : LRUCache Nat Nat) 1 99 10
      = (false, { list := [⟨1, 5, some 3⟩], size := 2 })
  ∧ (LRUCache.Get ({ list := [⟨1, 5, some 3⟩], size := 2 } : LRUCache Nat Nat) 1 10).1
      = none := by
  have h := claim_C10_theorem.2.1
    ({ list := [⟨1, 5, some 3⟩], size := 2 } : LRUCache Nat Nat)
    1 99 0 10 [] ⟨1, 5, some 3⟩ [] (by decide) (by decide)
  exact ⟨h.1, h.2.2⟩

end Incache

